import Mathlib

/-!
Verification of the concurrency-control kernel of the loan benchmark:
a per-key FIFO mutex, a versioned in-memory record store with
unconditional and compare-and-swap writes, and the benchmark driver
that measures the lost-update invariant.

The definitions below are a shallow embedding of the TypeScript source:
`Mutex` (per-key lock set and waiter queues), `InMemoryLoanRepository`
(`seed`, `findById`, `saveNaive`, `saveCAS`, `lock`, `unlock`), the
`Loan` entity with its `changeShare` mutation, the `getId` key selector
of the benchmark driver, and the driver's request handlers for the
`CAS` and `Pessimistic` modes.  Simulated latency (`randomDelay`) is a
pure suspension point: it does not touch any state, and is therefore
represented by where the atomic steps of the operational models are
cut, not by a definition of its own.
-/

namespace LoanBench


/-- A JavaScript runtime value as it flows through the benchmark's loan
fields: a number, or an opaque object literal (the `{} as any`
payloads and the values the argument positions actually receive); the
tag distinguishes allocations. -/
inductive JsVal where
  | num (n : Nat)
  | obj (tag : Nat)
deriving DecidableEq, Repr

/-- The loan entity as declared in the source: constructor parameters
`(id, amount, sharePie, version = 0)`.  `amount` and `sharePie` are
dynamic slots: at runtime they hold whatever value the caller passed
(the in-memory call sites pass only three arguments, shifting their
values into `amount`/`sharePie` and leaving `version` at its
default). -/
structure Loan where
  id : String
  amount : JsVal
  sharePie : JsVal
  version : Nat
deriving DecidableEq, Repr

/-- A three-argument constructor call `new Loan(a, b, c)` against the
four-parameter constructor: binds `amount := b`, `sharePie := c` and
leaves `version` at its default 0.  Every in-memory call site invokes
the constructor this way. -/
def mkLoan3 (a : String) (b c : JsVal) : Loan :=
  ⟨a, b, c, 0⟩

/-- The method `Loan.changeShare`: the business mutation — installs the
new pie and increments the version by one.  Modelled as a pure copy of
the mutated entity. -/
def Loan.changeShare (l : Loan) (newPie : JsVal) : Loan :=
  { l with sharePie := newPie, version := l.version + 1 }

/-- A stored slot of the repository: the loan plus the `shareId` tag
(`"init"` on seed, `"updated"` on every write). -/
structure StoreEntry where
  loan : Loan
  shareId : String
deriving DecidableEq, Repr

/-- The repository's backing `Map<string, StoreEntry>`, modelled as an
association list with JavaScript `Map` semantics (`set` updates in
place when the key is present, otherwise appends). -/
def Store : Type := List (String × StoreEntry)

instance : DecidableEq Store := by
  unfold Store
  infer_instance

/-- Lookup, i.e. `Map.get`: first (and, for a JS map, only) binding of the key. -/
def Store.get : Store → String → Option StoreEntry
  | [], _ => none
  | (k, e) :: rest, key => if k = key then some e else Store.get rest key

/-- Insertion, i.e. `Map.set`: replace the binding in place if the key is present,
append otherwise. -/
def Store.set : Store → String → StoreEntry → Store
  | [], key, e => [(key, e)]
  | (k, e0) :: rest, key, e =>
      if k = key then (key, e) :: rest else (k, e0) :: Store.set rest key e

/-- The key of the `i`-th seeded record: the string `loan-i`. -/
def loanId (i : Nat) : String :=
  "loan-" ++ toString i

/-- Embeds `InMemoryLoanRepository.seed(count)`: clear the store and
install `loan-0 … loan-(count-1)` via `new Loan(id, {} as any, 0)`
— a three-argument call, so each stored loan is
`⟨id, obj, num 0, 0⟩`. -/
def seed (count : Nat) : Store :=
  (List.range count).map (fun i =>
    (loanId i, ⟨mkLoan3 (loanId i) (JsVal.obj 0) (JsVal.num 0), "init"⟩))

/-- Embeds `InMemoryLoanRepository.findById`: after the simulated delay,
look the key up and return a copy built by
`new Loan(data.loan.id, data.loan.sharePie, data.loan.version)` — a
three-argument call against the four-parameter constructor, so the
copy's `amount` receives the stored pie, its `sharePie` receives the
stored version (as a number), and its `version` stays at the default
0. -/
def findById (s : Store) (id : String) : Option Loan :=
  match Store.get s id with
  | none => none
  | some data =>
      some (mkLoan3 data.loan.id data.loan.sharePie (JsVal.num data.loan.version))

/-- Embeds `InMemoryLoanRepository.saveNaive`: unconditional overwrite of the
slot for `loan.id`, tagging it `"updated"`. -/
def saveNaive (s : Store) (loan : Loan) : Store :=
  Store.set s loan.id ⟨loan, "updated"⟩

/-- Embeds `InMemoryLoanRepository.saveCAS`: after the simulated delay, in one
atomic step: look up `loan.id`; if absent report failure; if the stored
version differs from `oldVersion` report failure; otherwise install
`loan` and report success.  Returns the success flag together with the
store after the call. -/
def saveCAS (s : Store) (loan : Loan) (oldVersion : Nat) : Bool × Store :=
  match Store.get s loan.id with
  | none => (false, s)
  | some currentData =>
      if currentData.loan.version = oldVersion then
        (true, Store.set s loan.id ⟨loan, "updated"⟩)
      else
        (false, s)

/-- The version currently stored under a key, if any. -/
def currentVersion (s : Store) (k : String) : Option Nat :=
  (Store.get s k).map (fun e => e.loan.version)

/-- The store state and result flags after a set of racing writers,
serialized in some order by the store's internal sequencing, each call
`saveCAS ws[i] v`. -/
def runWriters (s : Store) (v : Nat) : List Loan → Store × List Bool
  | [] => (s, [])
  | l :: rest =>
      let r := saveCAS s l v
      let rec2 := runWriters r.2 v rest
      (rec2.1, r.1 :: rec2.2)

/-! ## The per-key mutex (`Mutex` in the source)

Waiters are identified by task ids (`Nat`): in the source a waiter is
the `resolve` callback pushed onto the key's queue; waking it resumes
exactly the task that registered it. -/

/-- Lookup `queues.get k` for the mutex's `Map<string, (() => void)[]>`. -/
def qGet : List (String × List Nat) → String → Option (List Nat)
  | [], _ => none
  | (k, q) :: rest, key => if k = key then some q else qGet rest key

/-- Insertion `queues.set k q` (JS map semantics: replace in place or append). -/
def qSet : List (String × List Nat) → String → List Nat → List (String × List Nat)
  | [], key, q => [(key, q)]
  | (k, q0) :: rest, key, q =>
      if k = key then (key, q) :: rest else (k, q0) :: qSet rest key q

/-- Deletion `queues.delete k`. -/
def qDel (qs : List (String × List Nat)) (key : String) :
    List (String × List Nat) :=
  qs.filter (fun p => p.1 ≠ key)

/-- The mutex state: the per-key waiter queues and the set of locked
keys, exactly the two private fields of the source class. -/
structure Mutex where
  queues : List (String × List Nat)
  locked : List String
deriving DecidableEq, Repr

/-- The mutex with no queues and no locked key. -/
def Mutex.empty : Mutex := ⟨[], []⟩

/-- Embeds `Mutex.lock(key)` called by task `t`: if the key is locked, push `t`
onto the key's queue (creating it if needed) and suspend (`false` =
the caller did not acquire immediately); otherwise mark the key locked
and return (`true` = the caller is now the holder). -/
def Mutex.lock (m : Mutex) (t : Nat) (k : String) : Mutex × Bool :=
  if k ∈ m.locked then
    ({ m with queues := qSet m.queues k ((qGet m.queues k).getD [] ++ [t]) }, false)
  else
    ({ m with locked := k :: m.locked }, true)

/-- Embeds `Mutex.unlock(key)`: if the key's queue is non-empty, shift its head
and signal that waiter (the lock stays marked); otherwise delete the
key from `locked` and drop its queue entry.  Returns the woken waiter,
if any. -/
def Mutex.unlock (m : Mutex) (k : String) : Mutex × Option Nat :=
  match qGet m.queues k with
  | some (t :: rest) => ({ m with queues := qSet m.queues k rest }, some t)
  | _ => (⟨qDel m.queues k, m.locked.filter (fun x => x ≠ k)⟩, none)

/-- The waiter queue currently associated with a key (empty when the
map has no entry), as read by `lock`'s enqueue path. -/
def qOf (m : Mutex) (k : String) : List Nat :=
  (qGet m.queues k).getD []

/-! ### FIFO fairness (C4) -/

/-- All of a list of tasks call `lock` on the same key, in order. -/
def lockAll (m : Mutex) (k : String) (ts : List Nat) : Mutex :=
  ts.foldl (fun mm t => (mm.lock t k).1) m

/-- The sequence of waiters woken by `n` successive `unlock` calls on a
key (one entry per call, `none` when the call woke nobody). -/
def unlockTrace (m : Mutex) (k : String) : Nat → List (Option Nat)
  | 0 => []
  | n + 1 =>
      let r := m.unlock k
      r.2 :: unlockTrace r.1 k n

/-- The mutex after `n` successive `unlock` calls on a key. -/
def unlockN (m : Mutex) (k : String) : Nat → Mutex
  | 0 => m
  | n + 1 => unlockN (m.unlock k).1 k n

/-! ### Mutual exclusion (C3) and unlock on a free key (C9)

A holder of a key is a task that has returned from `lock` (either on
the fast path or by being woken from the queue) and has not yet been
matched by an `unlock` of that key.  The event semantics below applies
an arbitrary interleaved sequence of `lock`/`unlock` calls to the
mutex and tracks the holders alongside. -/

/-- One call into the mutex: task `t` calls `lock k`, or `unlock k` is
invoked. -/
inductive MEvent where
  | lockE (t : Nat) (k : String)
  | unlockE (k : String)
deriving DecidableEq, Repr

/-- The mutex together with the (observational) list of current
holders. -/
structure MSys where
  mtx : Mutex
  holding : List (String × Nat)
deriving DecidableEq, Repr

/-- Apply one call: a fast-path `lock` makes the caller a holder; an
enqueued `lock` does not.  An `unlock` ends the current holding of the
key and, when it wakes a waiter, that waiter becomes the holder. -/
def mStep (s : MSys) : MEvent → MSys
  | MEvent.lockE t k =>
      let r := s.mtx.lock t k
      { mtx := r.1,
        holding := if r.2 then (k, t) :: s.holding else s.holding }
  | MEvent.unlockE k =>
      let r := s.mtx.unlock k
      let cleared := s.holding.filter (fun p => p.1 ≠ k)
      { mtx := r.1,
        holding := match r.2 with
          | some t2 => (k, t2) :: cleared
          | none => cleared }

/-- The system reached from the empty mutex by a call sequence. -/
def mRun (es : List MEvent) : MSys :=
  es.foldl mStep ⟨Mutex.empty, []⟩

/-- The tasks currently holding a given key. -/
def holdersOf (s : MSys) (k : String) : List Nat :=
  (s.holding.filter (fun p => p.1 = k)).map (fun p => p.2)

/-- The inductive invariant of the mutex system: at most one holder per
key, a key is locked exactly when it has a holder, and an unlocked key
has no queue entry. -/
def MInv (s : MSys) : Prop :=
  (∀ k, (holdersOf s k).length ≤ 1) ∧
  (∀ k, k ∈ s.mtx.locked ↔ holdersOf s k ≠ []) ∧
  (∀ k, k ∉ s.mtx.locked → qGet s.mtx.queues k = none)

/-! ## The benchmark driver's key selector (`getId`)

`Math.random()` draws are passed in explicitly (each in `[0,1)`), so
the selector is the pure function of its draws that the source
computes; numbers are modelled as exact rationals (`DATA_SIZE * 0.2 =
20` and `DATA_SIZE * 0.8 = 80` are exact in the source's doubles as
well). -/

/-- The three access distributions of the driver. -/
inductive DistributionType where
  | Extreme
  | Hotspot
  | Random
deriving DecidableEq, Repr

/-- The selector `getId(distribution)` as a function of the two random draws
(`DATA_SIZE = 100`): `Extreme` always picks `loan-0`; `Hotspot`
compares the first draw with 0.8 and quantizes the second draw over the
hot 20 keys (`floor(r2 * (100*0.2))`) or the cold 80 keys
(`floor(r2 * (100*0.8)) + 100*0.2`); `Random` quantizes over all 100.
Only `Hotspot` uses the first draw. -/
def getId (d : DistributionType) (r1 r2 : ℚ) : String :=
  match d with
  | DistributionType.Extreme => "loan-0"
  | DistributionType.Hotspot =>
      if r1 < 8/10 then
        loanId (Int.toNat ⌊r2 * ((100 : ℚ) * (2/10))⌋)
      else
        -- `+ 20` is the source's `+ total * 0.2`
        loanId (Int.toNat ⌊r2 * ((100 : ℚ) * (8/10))⌋ + 20)
  | DistributionType.Random => loanId (Int.toNat ⌊r2 * (100 : ℚ)⌋)

/-! ## The Pessimistic handler's scoped acquisition (C7)

`await repo.lock(id); try { read → mutate → write } finally
{ repo.unlock(id) }` is embedded in a trace-plus-exception semantics:
a computation records the repository calls it performed and whether it
completed or threw; `try … finally …` is given its JavaScript meaning
(the finalizer runs on both outcomes, the body's thrown error being
re-raised after a finalizer that completes). -/

/-- Repository calls observable from the pessimistic handler. -/
inductive PEv where
  | lockEv (k : String)
  | unlockEv (k : String)
  | readEv (k : String)
  | writeEv (k : String)
deriving DecidableEq, Repr

/-- A finished computation: the calls it emitted, and either its value
or the error it threw. -/
structure Comp (α : Type) where
  trace : List PEv
  result : Except String α

/-- Sequencing: the continuation runs only when the first part
completed; a thrown error short-circuits. -/
def Comp.andThen {α β : Type} (c : Comp α) (f : α → Comp β) : Comp β :=
  match c.result with
  | Except.error e => ⟨c.trace, Except.error e⟩
  | Except.ok a => ⟨c.trace ++ (f a).trace, (f a).result⟩

/-- Embeds `try c finally fin`: `fin` runs whether `c` completed or threw, and
`c`'s outcome (value or re-raised error) survives a finalizer that
completes. -/
def Comp.tryFinallyC {α : Type} (c : Comp α) (fin : Comp Unit) : Comp α :=
  ⟨c.trace ++ fin.trace,
    match fin.result with
    | Except.error e => Except.error e
    | Except.ok _ => c.result⟩

/-- Embeds `repo.lock(id)` (never throws). -/
def lockC (k : String) : Comp Unit := ⟨[PEv.lockEv k], Except.ok ()⟩

/-- Embeds `repo.unlock(id)` (never throws — see C9). -/
def unlockC (k : String) : Comp Unit := ⟨[PEv.unlockEv k], Except.ok ()⟩

/-- Where, if anywhere, an error is thrown inside the handler body. -/
inductive Fault where
  | noFault
  | inRead
  | inBody
  | inWrite
deriving DecidableEq, Repr

/-- The body of the Pessimistic handler — `findById`, then on a found
loan `changeShare` and `saveNaive`, on a missing key an early return —
with an error injectable at each point. -/
def pessBody (k : String) (found : Bool) (f : Fault) : Comp Unit :=
  match f with
  | Fault.inRead => ⟨[], Except.error "read failed"⟩
  | _ =>
      Comp.andThen ⟨[PEv.readEv k], Except.ok found⟩ (fun fnd =>
        if fnd then
          match f with
          | Fault.inBody => ⟨[], Except.error "mutate failed"⟩
          | Fault.inWrite => ⟨[PEv.writeEv k], Except.error "write failed"⟩
          | _ => ⟨[PEv.writeEv k], Except.ok ()⟩
        else ⟨[], Except.ok ()⟩)

/-- The Pessimistic request handler: lock, then the body under
`try … finally unlock`. -/
def pessHandler (k : String) (body : Comp Unit) : Comp Unit :=
  Comp.andThen (lockC k) (fun _ => Comp.tryFinallyC body (unlockC k))

/-! ## The lost-update oracle (C1)

The driver's check: after all requests complete, read every seeded key
back and report `TOTAL_REQUESTS - sum(final versions)`.  The two safe
strategies are modelled as state machines over the store (and, for
Pessimistic, the mutex): each request is a task whose atomic steps are
cut exactly at the source's suspension points, and a schedule is an
arbitrary interleaving of task steps. -/

/-- The version the driver's final scan reads for `loan-i` (0 when the
key is absent — `if (l)` in the source). -/
def versionAt (s : Store) (i : Nat) : Nat :=
  ((findById s (loanId i)).map Loan.version).getD 0

/-- The driver's `actualTotalVersion`: the versions of `loan-0 …
loan-(n-1)` read back and summed. -/
def sumVersions (s : Store) (n : Nat) : Nat :=
  ∑ i ∈ Finset.range n, versionAt s i

/-- The driver's `LostUpdates` metric: requests issued minus the summed
final versions. -/
def lostUpdates (s : Store) (n totalRequests : Nat) : ℤ :=
  (totalRequests : ℤ) - (sumVersions s n : ℤ)

/-- The fresh opaque object passed by each request's
`changeShare({} as any)`. -/
def updatedPie : JsVal := JsVal.obj 1

/-! ### The CAS strategy as a state machine -/

/-- A CAS-mode request: about to read; holding the read copy `l` and
about to attempt the CAS (the mutation `changeShare` and the capture of
`oldVer` happen atomically with the attempt's dispatch); or finished. -/
inductive CTask where
  | start (k : String)
  | ready (k : String) (l : Loan)
  | done
deriving DecidableEq, Repr

/-- The CAS benchmark system: the store plus every request's state. -/
structure CSys where
  store : Store
  tasks : Nat → CTask

/-- Initial CAS system: a freshly seeded store and `N` requests, request
`i` targeting `keys i`. -/
def cInit (n N : Nat) (keys : Nat → String) : CSys :=
  ⟨seed n, fun i => if i < N then CTask.start (keys i) else CTask.done⟩

/-- One atomic step of request `i` under the CAS strategy: a `start`
task performs its read (a missing key is the loop's `break`); a `ready`
task attempts `saveCAS(loan.changeShare(...), oldVer)` — on success the
request completes, on failure it retries with a fresh read. -/
def cStep (sys : CSys) (i : Nat) : CSys :=
  match sys.tasks i with
  | CTask.start k =>
      match findById sys.store k with
      | none => { sys with tasks := Function.update sys.tasks i CTask.done }
      | some l => { sys with tasks := Function.update sys.tasks i (CTask.ready k l) }
  | CTask.ready k l =>
      let r := saveCAS sys.store (l.changeShare updatedPie) l.version
      if r.1 then ⟨r.2, Function.update sys.tasks i CTask.done⟩
      else ⟨r.2, Function.update sys.tasks i (CTask.start k)⟩
  | CTask.done => sys

/-- The CAS system after an arbitrary schedule of task steps. -/
def cRun (n N : Nat) (keys : Nat → String) (sched : List Nat) : CSys :=
  sched.foldl cStep (cInit n N keys)

/-! ### The Pessimistic strategy as a state machine

A request's atomic steps: `lock` (acquiring immediately or enqueueing),
the read inside the critical section, the unconditional write, and the
`finally` unlock (which may wake the next waiter, transferring the
lock to it in the same atomic step, as the source's `unlock` does). -/

/-- A Pessimistic-mode request's state: about to lock; parked in the
key's wait queue; holding the lock and about to read; holding the read
copy and about to write; written and about to unlock; finished. -/
inductive PTask where
  | pstart (k : String)
  | pwaiting (k : String)
  | plocked (k : String)
  | pread (k : String) (l : Loan)
  | pwritten (k : String)
  | pdone
deriving DecidableEq, Repr

/-- The Pessimistic benchmark system: store, mutex, and every request's
state. -/
structure PSys where
  store : Store
  mtx : Mutex
  tasks : Nat → PTask

/-- Initial Pessimistic system: seeded store, free mutex, `N` requests
each about to lock its target key. -/
def pInit (n N : Nat) (keys : Nat → String) : PSys :=
  ⟨seed n, Mutex.empty, fun i => if i < N then PTask.pstart (keys i) else PTask.pdone⟩

/-- One atomic step of request `i` under the Pessimistic strategy. -/
def pStep (sys : PSys) (i : Nat) : PSys :=
  match sys.tasks i with
  | PTask.pstart k =>
      let r := sys.mtx.lock i k
      if r.2 then ⟨sys.store, r.1, Function.update sys.tasks i (PTask.plocked k)⟩
      else ⟨sys.store, r.1, Function.update sys.tasks i (PTask.pwaiting k)⟩
  | PTask.pwaiting _ => sys
  | PTask.plocked k =>
      match findById sys.store k with
      | none => ⟨sys.store, sys.mtx, Function.update sys.tasks i (PTask.pwritten k)⟩
      | some l => ⟨sys.store, sys.mtx, Function.update sys.tasks i (PTask.pread k l)⟩
  | PTask.pread k l =>
      ⟨saveNaive sys.store (l.changeShare updatedPie), sys.mtx,
        Function.update sys.tasks i (PTask.pwritten k)⟩
  | PTask.pwritten k =>
      let r := sys.mtx.unlock k
      match r.2 with
      | some t2 =>
          ⟨sys.store, r.1,
            Function.update (Function.update sys.tasks i PTask.pdone) t2
              (PTask.plocked k)⟩
      | none => ⟨sys.store, r.1, Function.update sys.tasks i PTask.pdone⟩
  | PTask.pdone => sys

/-- The Pessimistic system after an arbitrary schedule of task steps. -/
def pRun (n N : Nat) (keys : Nat → String) (sched : List Nat) : PSys :=
  sched.foldl pStep (pInit n N keys)

/-- The store reached from `seed(1)` by the benchmark's own
read-mutate-write on `loan-0` (as the Naive and Pessimistic handlers
perform it): the stored slot now carries version 1. -/
def demoStore : Store :=
  match findById (seed 1) (loanId 0) with
  | some l => saveNaive (seed 1) (l.changeShare (JsVal.obj 1))
  | none => seed 1

/-! ## Theorems -/

theorem Store.get_set_eq (s : Store) (k : String) (e : StoreEntry) :
    Store.get (Store.set s k e) k = some e := by
  induction s with
  | nil => simp [Store.set, Store.get]
  | cons hd tl ih =>
      obtain ⟨k0, e0⟩ := hd
      by_cases h : k0 = k
      · simp [Store.set, Store.get, h]
      · simp [Store.set, Store.get, h, ih]

theorem Store.get_set_ne (s : Store) (k k2 : String) (e : StoreEntry) (h : k ≠ k2) :
    Store.get (Store.set s k e) k2 = Store.get s k2 := by
  induction s with
  | nil => simp [Store.set, Store.get, h]
  | cons hd tl ih =>
      obtain ⟨k0, e0⟩ := hd
      by_cases h0 : k0 = k
      · subst h0
        simp [Store.set, Store.get, h]
      · simp [Store.set, Store.get, h0, ih]

theorem currentVersion_set_eq (s : Store) (k : String) (e : StoreEntry) :
    currentVersion (Store.set s k e) k = some e.loan.version := by
  simp [currentVersion, Store.get_set_eq]

theorem currentVersion_set_ne (s : Store) (k k2 : String) (e : StoreEntry)
    (h : k ≠ k2) :
    currentVersion (Store.set s k e) k2 = currentVersion s k2 := by
  simp [currentVersion, Store.get_set_ne s k k2 e h]

/-- On a failed compare, `saveCAS` returns the store untouched. -/
theorem saveCAS_fail_store (s : Store) (l : Loan) (v : Nat)
    (h : (saveCAS s l v).1 = false) : (saveCAS s l v).2 = s := by
  unfold saveCAS at *
  cases hg : Store.get s l.id with
  | none => simp [hg]
  | some e =>
      by_cases hv : e.loan.version = v
      · simp [hg, hv] at h
      · simp [hg, hv]

/-- A CAS against a store whose current version differs from the
expectation fails and leaves the store unchanged. -/
theorem saveCAS_of_version_ne (s : Store) (l : Loan) (v : Nat)
    (h : currentVersion s l.id ≠ some v) : saveCAS s l v = (false, s) := by
  unfold saveCAS
  cases hg : Store.get s l.id with
  | none => simp
  | some e =>
      by_cases hv : e.loan.version = v
      · exact absurd (by simp [currentVersion, hg, hv]) h
      · simp [hv]

/-- A CAS against a store whose current version matches the expectation
succeeds and installs the record. -/
theorem saveCAS_of_version_eq (s : Store) (l : Loan) (v : Nat)
    (h : currentVersion s l.id = some v) :
    saveCAS s l v = (true, Store.set s l.id ⟨l, "updated"⟩) := by
  unfold saveCAS
  cases hg : Store.get s l.id with
  | none => simp [currentVersion, hg] at h
  | some e =>
      simp [currentVersion, hg] at h
      simp [h]

/-- Claim C5 — `writeCAS` compares the currently stored version for
`record.id` with `expectedVersion`: on equality it installs the record
under `record.id` (leaving every other key untouched) and returns
success; on inequality, or when the key is absent, it returns failure
and leaves the store exactly unchanged. -/
theorem saveCAS_spec (s : Store) (l : Loan) (v : Nat) :
    (currentVersion s l.id = some v →
      (saveCAS s l v).1 = true ∧
      Store.get (saveCAS s l v).2 l.id = some ⟨l, "updated"⟩ ∧
      ∀ k, k ≠ l.id → Store.get (saveCAS s l v).2 k = Store.get s k) ∧
    (currentVersion s l.id ≠ some v → saveCAS s l v = (false, s)) := by
  constructor
  · intro h
    rw [saveCAS_of_version_eq s l v h]
    refine ⟨rfl, Store.get_set_eq s l.id ⟨l, "updated"⟩, ?_⟩
    intro k hk
    exact Store.get_set_ne s l.id k ⟨l, "updated"⟩ (fun he => hk he.symm)
  · intro h
    exact saveCAS_of_version_ne s l v h

/-- Witness for C5: on a one-record store at version 0, a CAS expecting
version 0 succeeds and installs the record; expecting version 7 fails
and leaves the store unchanged. -/
theorem saveCAS_spec_witness :
    (saveCAS [(("k" : String), ⟨⟨"k", JsVal.obj 0, JsVal.num 0, 0⟩, "init"⟩)] ⟨"k", JsVal.num 0, JsVal.obj 5, 1⟩ 0).1 = true ∧
    saveCAS [(("k" : String), ⟨⟨"k", JsVal.obj 0, JsVal.num 0, 0⟩, "init"⟩)] ⟨"k", JsVal.num 0, JsVal.obj 5, 1⟩ 7 =
      (false, [(("k" : String), ⟨⟨"k", JsVal.obj 0, JsVal.num 0, 0⟩, "init"⟩)]) := by
  have h1 := (saveCAS_spec [(("k" : String), ⟨⟨"k", JsVal.obj 0, JsVal.num 0, 0⟩, "init"⟩)] ⟨"k", JsVal.num 0, JsVal.obj 5, 1⟩ 0).1
    (by simp [currentVersion, Store.get])
  have h2 := (saveCAS_spec [(("k" : String), ⟨⟨"k", JsVal.obj 0, JsVal.num 0, 0⟩, "init"⟩)] ⟨"k", JsVal.num 0, JsVal.obj 5, 1⟩ 7).2
    (by simp [currentVersion, Store.get])
  exact ⟨h1.1, h2⟩

/-- Claim C10 — `writeCAS` never validates the incoming record's own
version field: whenever the stored version matches `expectedVersion`
the caller's record is installed verbatim (whatever its `version`), and
in particular when the installed record's version again equals
`expectedVersion`, a later CAS on the same key with the same
`expectedVersion` also succeeds. -/
theorem saveCAS_no_version_validation (s : Store) (l : Loan) (v : Nat)
    (h : currentVersion s l.id = some v) :
    (saveCAS s l v).1 = true ∧
    Store.get (saveCAS s l v).2 l.id = some ⟨l, "updated"⟩ ∧
    (l.version = v → ∀ l2 : Loan, l2.id = l.id →
      (saveCAS (saveCAS s l v).2 l2 v).1 = true) := by
  rw [saveCAS_of_version_eq s l v h]
  refine ⟨rfl, Store.get_set_eq s l.id ⟨l, "updated"⟩, ?_⟩
  intro hv l2 hid
  have hcur : currentVersion (Store.set s l.id ⟨l, "updated"⟩) l2.id = some v := by
    rw [hid, currentVersion_set_eq]
    simp [hv]
  rw [saveCAS_of_version_eq _ l2 v hcur]

/-- Witness for C10: installing a record whose version equals the
expectation (instead of expectation + 1) lets a second CAS with the
same expectation succeed as well. -/
theorem saveCAS_no_version_validation_witness :
    (saveCAS [(("k" : String), ⟨⟨"k", JsVal.obj 0, JsVal.num 0, 0⟩, "init"⟩)] ⟨"k", JsVal.num 0, JsVal.obj 1, 0⟩ 0).1 = true ∧
    (saveCAS (saveCAS [(("k" : String), ⟨⟨"k", JsVal.obj 0, JsVal.num 0, 0⟩, "init"⟩)] ⟨"k", JsVal.num 0, JsVal.obj 1, 0⟩ 0).2
      ⟨"k", JsVal.num 0, JsVal.obj 2, 0⟩ 0).1 = true := by
  have h := saveCAS_no_version_validation
    [(("k" : String), ⟨⟨"k", JsVal.obj 0, JsVal.num 0, 0⟩, "init"⟩)] ⟨"k", JsVal.num 0, JsVal.obj 1, 0⟩ 0
    (by simp [currentVersion, Store.get])
  exact ⟨h.1, h.2.2 rfl ⟨"k", JsVal.num 0, JsVal.obj 2, 0⟩ rfl⟩

/-- After one writer has succeeded, every later CAS on the same key with
the same expectation fails: the stored version is now the successor of
the expectation. -/
theorem runWriters_all_fail (s : Store) (k : String) (v : Nat)
    (ws : List Loan) (hws : ∀ l ∈ ws, l.id = k ∧ l.version = v + 1)
    (hcur : currentVersion s k = some (v + 1)) :
    (runWriters s v ws).2.count true = 0 := by
  induction ws generalizing s with
  | nil => simp [runWriters]
  | cons l rest ih =>
      obtain ⟨hid, _⟩ := hws l (List.mem_cons_self l rest)
      have hne : currentVersion s l.id ≠ some v := by
        rw [hid, hcur]
        simp
      have hfail := saveCAS_of_version_ne s l v hne
      simp only [runWriters, hfail, List.count_cons]
      have := ih s (fun l2 h2 => hws l2 (List.mem_cons_of_mem l h2)) hcur
      simp [this]

/-- Claim C2 — for any set of writers racing on the same key with the same
`expectedVersion`, each installing a record at version
`expectedVersion + 1` as the contract requires, at most one `saveCAS`
call reports success, and every failing call leaves the store exactly as
it found it. -/
theorem saveCAS_atomicity (s : Store) (k : String) (v : Nat) (ws : List Loan)
    (hws : ∀ l ∈ ws, l.id = k ∧ l.version = v + 1) :
    (runWriters s v ws).2.count true ≤ 1 ∧
    (∀ s2 : Store, ∀ l : Loan,
      (saveCAS s2 l v).1 = false → (saveCAS s2 l v).2 = s2) := by
  refine ⟨?_, fun s2 l h => saveCAS_fail_store s2 l v h⟩
  induction ws generalizing s with
  | nil => simp [runWriters]
  | cons l rest ih =>
      obtain ⟨hid, hver⟩ := hws l (List.mem_cons_self l rest)
      by_cases hv : currentVersion s l.id = some v
      · have hsucc := saveCAS_of_version_eq s l v hv
        simp only [runWriters, hsucc, List.count_cons]
        have hafter : currentVersion (Store.set s l.id ⟨l, "updated"⟩) k
            = some (v + 1) := by
          rw [← hid, currentVersion_set_eq]
          simp [hver]
        have h0 := runWriters_all_fail (Store.set s l.id ⟨l, "updated"⟩) k v rest
          (fun l2 h2 => hws l2 (List.mem_cons_of_mem l h2)) hafter
        simp [h0]
      · have hfail := saveCAS_of_version_ne s l v hv
        simp only [runWriters, hfail, List.count_cons]
        have := ih s (fun l2 h2 => hws l2 (List.mem_cons_of_mem l h2))
        simpa using this

/-- Witness for C2: three writers race on key `k` at expectation 0, each
carrying version 1; exactly one succeeds. -/
theorem saveCAS_atomicity_witness :
    (runWriters [(("k" : String), ⟨⟨"k", JsVal.obj 0, JsVal.num 0, 0⟩, "init"⟩)] 0
      [⟨"k", JsVal.num 0, JsVal.obj 1, 1⟩, ⟨"k", JsVal.num 0, JsVal.obj 2, 1⟩, ⟨"k", JsVal.num 0, JsVal.obj 3, 1⟩]).2.count true ≤ 1 := by
  exact (saveCAS_atomicity [(("k" : String), ⟨⟨"k", JsVal.obj 0, JsVal.num 0, 0⟩, "init"⟩)] "k" 0
    [⟨"k", JsVal.num 0, JsVal.obj 1, 1⟩, ⟨"k", JsVal.num 0, JsVal.obj 2, 1⟩, ⟨"k", JsVal.num 0, JsVal.obj 3, 1⟩] (by decide)).1

theorem qGet_qSet_eq (qs : List (String × List Nat)) (k : String) (q : List Nat) :
    qGet (qSet qs k q) k = some q := by
  induction qs with
  | nil => simp [qSet, qGet]
  | cons hd tl ih =>
      obtain ⟨k0, q0⟩ := hd
      by_cases h : k0 = k
      · simp [qSet, qGet, h]
      · simp [qSet, qGet, h, ih]

theorem qGet_qSet_ne (qs : List (String × List Nat)) (k k2 : String)
    (q : List Nat) (h : k ≠ k2) :
    qGet (qSet qs k q) k2 = qGet qs k2 := by
  induction qs with
  | nil => simp [qSet, qGet, h]
  | cons hd tl ih =>
      obtain ⟨k0, q0⟩ := hd
      by_cases h0 : k0 = k
      · subst h0
        simp [qSet, qGet, h]
      · simp [qSet, qGet, h0, ih]

theorem qGet_none_qDel (qs : List (String × List Nat)) (k : String)
    (h : qGet qs k = none) : qDel qs k = qs := by
  induction qs with
  | nil => simp [qDel]
  | cons hd tl ih =>
      obtain ⟨k0, q0⟩ := hd
      by_cases h0 : k0 = k
      · simp [qGet, h0] at h
      · simp only [qGet, h0, if_false] at h
        simp [qDel, h0, List.filter] at ih ⊢
        exact ih h

theorem filter_ne_of_not_mem (l : List String) (k : String) (h : k ∉ l) :
    l.filter (fun x => x ≠ k) = l := by
  refine List.filter_eq_self.mpr ?_
  intro a ha
  simp only [ne_eq, decide_not, Bool.not_eq_true', decide_eq_false_iff_not]
  intro he
  exact h (he ▸ ha)

theorem lockAll_enqueues (m : Mutex) (k : String) (ts : List Nat)
    (hk : k ∈ m.locked) :
    qOf (lockAll m k ts) k = qOf m k ++ ts ∧
    (lockAll m k ts).locked = m.locked := by
  induction ts generalizing m with
  | nil => simp [lockAll]
  | cons t rest ih =>
      have hstep : (m.lock t k).1 =
          { m with queues := qSet m.queues k (qOf m k ++ [t]) } := by
        simp [Mutex.lock, hk, qOf]
      have hq : qOf (m.lock t k).1 k = qOf m k ++ [t] := by
        rw [hstep]
        simp [qOf, qGet_qSet_eq]
      have hl : (m.lock t k).1.locked = m.locked := by
        rw [hstep]
      have := ih (m.lock t k).1 (by rw [hl]; exact hk)
      simp only [lockAll, List.foldl_cons] at this ⊢
      rw [this.1, this.2, hq, hl]
      simp

theorem unlock_fifo (m : Mutex) (k : String) (l : List Nat)
    (hq : qOf m k = l) (hk : k ∈ m.locked) :
    unlockTrace m k l.length = l.map some ∧
    (∀ n, n ≤ l.length → k ∈ (unlockN m k n).locked) := by
  induction l generalizing m with
  | nil =>
      refine ⟨rfl, ?_⟩
      intro n hn
      have hn0 : n = 0 := Nat.le_zero.mp hn
      subst hn0
      exact hk
  | cons t rest ih =>
      have hget : qGet m.queues k = some (t :: rest) := by
        unfold qOf at hq
        cases hg : qGet m.queues k with
        | none => simp [hg] at hq
        | some q => simp [hg] at hq; rw [hq]
      have hstep : m.unlock k = ({ m with queues := qSet m.queues k rest }, some t) := by
        simp [Mutex.unlock, hget]
      have hq2 : qOf { m with queues := qSet m.queues k rest } k = rest := by
        simp [qOf, qGet_qSet_eq]
      have hk2 : k ∈ (Mutex.mk (qSet m.queues k rest) m.locked).locked := hk
      obtain ⟨ihT, ihL⟩ := ih { m with queues := qSet m.queues k rest } hq2 hk2
      constructor
      · simp only [unlockTrace, hstep, List.length_cons, List.map_cons]
        rw [ihT]
      · intro n hn
        cases n with
        | zero => exact hk
        | succ n2 =>
            simp only [unlockN, hstep]
            exact ihL n2 (Nat.le_of_succ_le_succ hn)

/-- Claim C4 — with a key held and waiters `ts` arriving in order, the
waiters are appended to the key's queue in arrival order, and the
following `unlock` calls wake exactly one waiter each, in exactly that
order, with the key remaining marked locked after every such call
(direct lock transfer: no free window while the queue drains). -/
theorem mutex_fifo (m : Mutex) (k : String) (q0 ts : List Nat)
    (hq : qOf m k = q0) (hk : k ∈ m.locked) :
    qOf (lockAll m k ts) k = q0 ++ ts ∧
    unlockTrace (lockAll m k ts) k (q0 ++ ts).length = (q0 ++ ts).map some ∧
    (∀ n, n ≤ (q0 ++ ts).length → k ∈ (unlockN (lockAll m k ts) k n).locked) := by
  obtain ⟨hq2, hl2⟩ := lockAll_enqueues m k ts hk
  rw [hq] at hq2
  have hk2 : k ∈ (lockAll m k ts).locked := by rw [hl2]; exact hk
  obtain ⟨hT, hL⟩ := unlock_fifo (lockAll m k ts) k (q0 ++ ts) hq2 hk2
  exact ⟨hq2, hT, hL⟩

/-- Witness for C4: task 0 holds key `a`; tasks 1, 2, 3 enqueue in that
order and the three unlocks wake 1, 2, 3 in order, the key staying
locked throughout. -/
theorem mutex_fifo_witness :
    qOf (lockAll (Mutex.lock Mutex.empty 0 "a").1 "a" [1, 2, 3]) "a" = [1, 2, 3] ∧
    unlockTrace (lockAll (Mutex.lock Mutex.empty 0 "a").1 "a" [1, 2, 3]) "a" 3 =
      [some 1, some 2, some 3] := by
  have h := mutex_fifo (Mutex.lock Mutex.empty 0 "a").1 "a" [] [1, 2, 3]
    (by decide) (by decide)
  exact ⟨h.1, h.2.1⟩

theorem holdersOf_cons_eq (h : List (String × Nat)) (m : Mutex) (k : String)
    (t : Nat) :
    holdersOf ⟨m, (k, t) :: h⟩ k = t :: holdersOf ⟨m, h⟩ k := by
  simp [holdersOf, List.filter]

theorem holdersOf_cons_ne (h : List (String × Nat)) (m : Mutex) (k k2 : String)
    (t : Nat) (hne : k ≠ k2) :
    holdersOf ⟨m, (k, t) :: h⟩ k2 = holdersOf ⟨m, h⟩ k2 := by
  have : (k = k2) = False := by simp [hne]
  simp [holdersOf, List.filter, this]

theorem holdersOf_filter_self (h : List (String × Nat)) (m2 : Mutex)
    (k : String) :
    holdersOf ⟨m2, h.filter (fun p => p.1 ≠ k)⟩ k = [] := by
  simp only [holdersOf, List.filter_filter]
  have : ∀ p : String × Nat, (decide (p.1 = k) && decide (p.1 ≠ k)) = false := by
    intro p
    by_cases hp : p.1 = k <;> simp [hp]
  simp [this]

theorem holdersOf_filter_ne (h : List (String × Nat)) (m m2 : Mutex)
    (k k2 : String) (hne : k ≠ k2) :
    holdersOf ⟨m2, h.filter (fun p => p.1 ≠ k)⟩ k2 = holdersOf ⟨m, h⟩ k2 := by
  simp only [holdersOf, List.filter_filter]
  congr 1
  apply List.filter_congr
  intro p _
  by_cases hp : p.1 = k2
  · have h2k : ¬k2 = k := fun he => hne he.symm
    simp [hp, h2k]
  · simp [hp]

theorem holdersOf_indep (h : List (String × Nat)) (m m2 : Mutex) (k : String) :
    holdersOf ⟨m, h⟩ k = holdersOf ⟨m2, h⟩ k := rfl

theorem qDel_cons (k0 : String) (q0 : List Nat) (tl : List (String × List Nat))
    (k : String) :
    qDel ((k0, q0) :: tl) k =
      if k0 = k then qDel tl k else (k0, q0) :: qDel tl k := by
  by_cases h : k0 = k <;> simp [qDel, List.filter_cons, h]

theorem qGet_qDel_eq (qs : List (String × List Nat)) (k : String) :
    qGet (qDel qs k) k = none := by
  induction qs with
  | nil => simp [qDel, qGet]
  | cons hd tl ih =>
      obtain ⟨k0, q0⟩ := hd
      rw [qDel_cons]
      by_cases h0 : k0 = k
      · simp [h0, ih]
      · simp [h0, qGet, ih]

theorem qGet_qDel_ne (qs : List (String × List Nat)) (k k2 : String)
    (h : k ≠ k2) :
    qGet (qDel qs k) k2 = qGet qs k2 := by
  induction qs with
  | nil => simp [qDel, qGet]
  | cons hd tl ih =>
      obtain ⟨k0, q0⟩ := hd
      rw [qDel_cons]
      by_cases h0 : k0 = k
      · subst h0
        simp [qGet, h, ih]
      · have h2k : ¬k2 = k := fun he => h he.symm
        by_cases h2 : k0 = k2
        · simp [h2, h2k, qGet]
        · simp [h0, qGet, h2, ih]

theorem mInv_init : MInv ⟨Mutex.empty, []⟩ := by
  refine ⟨?_, ?_, ?_⟩ <;> intro k <;> simp [holdersOf, Mutex.empty, qGet]

/-- The released shape produced by `unlock` when nobody is waiting
satisfies the invariant again. -/
theorem mInv_free_aux (s : MSys) (k : String)
    (h1 : ∀ k2, (holdersOf s k2).length ≤ 1)
    (h2 : ∀ k2, k2 ∈ s.mtx.locked ↔ holdersOf s k2 ≠ [])
    (h3 : ∀ k2, k2 ∉ s.mtx.locked → qGet s.mtx.queues k2 = none) :
    MInv ⟨⟨qDel s.mtx.queues k, s.mtx.locked.filter (fun x => x ≠ k)⟩,
      s.holding.filter (fun p => p.1 ≠ k)⟩ := by
  have hmemf : ∀ k2, k2 ∈ s.mtx.locked.filter (fun x => x ≠ k) ↔
      (k2 ∈ s.mtx.locked ∧ k2 ≠ k) := by
    intro k2
    simp [List.mem_filter]
  refine ⟨?_, ?_, ?_⟩
  · intro k2
    by_cases he : k = k2
    · subst he
      rw [holdersOf_filter_self _ _]
      simp
    · rw [holdersOf_filter_ne _ s.mtx _ _ _ he]
      exact h1 k2
  · intro k2
    by_cases he : k = k2
    · subst he
      rw [holdersOf_filter_self _ _]
      simp [hmemf]
    · rw [holdersOf_filter_ne _ s.mtx _ _ _ he]
      rw [hmemf]
      constructor
      · intro hm
        exact (h2 k2).mp hm.1
      · intro hne
        exact ⟨(h2 k2).mpr hne, fun h4 => he h4.symm⟩
  · intro k2 hk2
    by_cases he : k = k2
    · subst he
      exact qGet_qDel_eq s.mtx.queues k
    · rw [qGet_qDel_ne _ _ _ he]
      rw [hmemf] at hk2
      push_neg at hk2
      by_cases hmem : k2 ∈ s.mtx.locked
      · exact absurd (hk2 hmem).symm he
      · exact h3 k2 hmem

theorem mInv_step (s : MSys) (e : MEvent) (hs : MInv s) : MInv (mStep s e) := by
  obtain ⟨h1, h2, h3⟩ := hs
  cases e with
  | lockE t k =>
      by_cases hk : k ∈ s.mtx.locked
      · -- enqueue path: holders and locked unchanged
        have hstep : mStep s (MEvent.lockE t k) =
            ⟨⟨qSet s.mtx.queues k ((qGet s.mtx.queues k).getD [] ++ [t]),
              s.mtx.locked⟩, s.holding⟩ := by
          simp [mStep, Mutex.lock, hk]
        rw [hstep]
        refine ⟨fun k2 => h1 k2, fun k2 => h2 k2, ?_⟩
        intro k2 hk2
        have hne : k ≠ k2 := fun he => hk2 (he ▸ hk)
        rw [qGet_qSet_ne _ _ _ _ hne]
        exact h3 k2 hk2
      · -- fast path: the caller becomes the unique holder
        have hstep : mStep s (MEvent.lockE t k) =
            ⟨⟨s.mtx.queues, k :: s.mtx.locked⟩, (k, t) :: s.holding⟩ := by
          simp [mStep, Mutex.lock, hk]
        rw [hstep]
        have hempty : holdersOf s k = [] := by
          by_contra hne
          exact hk ((h2 k).mpr hne)
        refine ⟨?_, ?_, ?_⟩
        · intro k2
          by_cases he : k = k2
          · subst he
            rw [holdersOf_cons_eq]
            have : holdersOf ⟨⟨s.mtx.queues, k :: s.mtx.locked⟩, s.holding⟩ k
                = holdersOf s k := rfl
            rw [this, hempty]
            simp
          · rw [holdersOf_cons_ne _ _ _ _ _ he]
            exact h1 k2
        · intro k2
          by_cases he : k = k2
          · subst he
            rw [holdersOf_cons_eq]
            simp
          · rw [holdersOf_cons_ne _ _ _ _ _ he]
            constructor
            · intro hmem
              rcases List.mem_cons.mp hmem with h | h
              · exact absurd h.symm he
              · exact (h2 k2).mp h
            · intro hne
              exact List.mem_cons_of_mem _ ((h2 k2).mpr hne)
        · intro k2 hk2
          simp only [List.mem_cons, not_or] at hk2
          exact h3 k2 hk2.2
  | unlockE k =>
      cases hget : qGet s.mtx.queues k with
      | some q =>
          cases q with
          | cons t2 rest =>
              -- wake path: the woken waiter is the new unique holder
              have hklocked : k ∈ s.mtx.locked := by
                by_contra hk
                rw [h3 k hk] at hget
                exact Option.noConfusion hget
              have hstep : mStep s (MEvent.unlockE k) =
                  ⟨⟨qSet s.mtx.queues k rest, s.mtx.locked⟩,
                    (k, t2) :: s.holding.filter (fun p => p.1 ≠ k)⟩ := by
                simp [mStep, Mutex.unlock, hget]
              rw [hstep]
              refine ⟨?_, ?_, ?_⟩
              · intro k2
                by_cases he : k = k2
                · subst he
                  rw [holdersOf_cons_eq, holdersOf_filter_self _ _]
                  simp
                · rw [holdersOf_cons_ne _ _ _ _ _ he,
                    holdersOf_filter_ne _ s.mtx _ _ _ he]
                  exact h1 k2
              · intro k2
                by_cases he : k = k2
                · subst he
                  rw [holdersOf_cons_eq]
                  simp [hklocked]
                · rw [holdersOf_cons_ne _ _ _ _ _ he,
                    holdersOf_filter_ne _ s.mtx _ _ _ he]
                  exact h2 k2
              · intro k2 hk2
                have hne : k ≠ k2 := fun he => hk2 (he ▸ hklocked)
                rw [qGet_qSet_ne _ _ _ _ hne]
                exact h3 k2 hk2
          | nil =>
              -- free path with an (empty) queue entry: key released
              have hstep : mStep s (MEvent.unlockE k) =
                  ⟨⟨qDel s.mtx.queues k, s.mtx.locked.filter (fun x => x ≠ k)⟩,
                    s.holding.filter (fun p => p.1 ≠ k)⟩ := by
                simp [mStep, Mutex.unlock, hget]
              rw [hstep]
              exact mInv_free_aux s k h1 h2 h3
      | none =>
          have hstep : mStep s (MEvent.unlockE k) =
              ⟨⟨qDel s.mtx.queues k, s.mtx.locked.filter (fun x => x ≠ k)⟩,
                s.holding.filter (fun p => p.1 ≠ k)⟩ := by
            simp [mStep, Mutex.unlock, hget]
          rw [hstep]
          exact mInv_free_aux s k h1 h2 h3

theorem mInv_run (es : List MEvent) : MInv (mRun es) := by
  suffices h : ∀ s, MInv s → MInv (es.foldl mStep s) by
    exact h ⟨Mutex.empty, []⟩ mInv_init
  induction es with
  | nil => intro s hs; exact hs
  | cons e rest ih =>
      intro s hs
      exact ih (mStep s e) (mInv_step s e hs)

/-- Claim C3 — in every state of the mutex reachable by any interleaved
sequence of `lock`/`unlock` calls, every key has at most one holder: at
most one task has returned from `lock` on that key without a matching
`unlock` (a waiter woken by `unlock` becoming the unique holder). -/
theorem mutex_mutual_exclusion (es : List MEvent) (k : String) :
    (holdersOf (mRun es) k).length ≤ 1 :=
  (mInv_run es).1 k

/-- Claim C9 — calling `unlock` on a key that is not locked in a reachable
mutex state is a silent no-op: the locked set and the queue map are
returned unchanged and no waiter (on any key) is woken. -/
theorem unlock_unlocked_noop (es : List MEvent) (k : String)
    (hk : k ∉ (mRun es).mtx.locked) :
    (mRun es).mtx.unlock k = ((mRun es).mtx, none) := by
  have hq : qGet (mRun es).mtx.queues k = none := (mInv_run es).2.2 k hk
  unfold Mutex.unlock
  rw [hq]
  simp only
  rw [qGet_none_qDel _ _ hq, filter_ne_of_not_mem _ _ hk]

/-- Witness for C9: after task 0 locks `a`, an unlock of the unrelated
key `b` changes nothing and wakes nobody. -/
theorem unlock_unlocked_noop_witness :
    (mRun [MEvent.lockE 0 "a"]).mtx.unlock "b" = ((mRun [MEvent.lockE 0 "a"]).mtx, none) :=
  unlock_unlocked_noop [MEvent.lockE 0 "a"] "b" (by decide)

/-- Claim C8 — for draws in `[0,1)`: when the first draw is below 0.8 the
Hotspot selector returns the key of the hot region whose uniform
1/20-wide cell contains the second draw (`loan-0 … loan-19`); otherwise
it returns the cold-region key whose uniform 1/80-wide cell contains
the second draw (`loan-20 … loan-99`); in every case the returned key
lies in the 100-key space. -/
theorem hotspot_selector (r1 r2 : ℚ) (_h1 : 0 ≤ r1) (_hr1 : r1 < 1)
    (h3 : 0 ≤ r2) (h4 : r2 < 1) :
    (r1 < 8/10 → ∃ i : Nat, i < 20 ∧ getId DistributionType.Hotspot r1 r2 = loanId i ∧
      (i : ℚ) / 20 ≤ r2 ∧ r2 < ((i : ℚ) + 1) / 20) ∧
    (¬r1 < 8/10 → ∃ i : Nat, 20 ≤ i ∧ i < 100 ∧
      getId DistributionType.Hotspot r1 r2 = loanId i ∧
      ((i : ℚ) - 20) / 80 ≤ r2 ∧ r2 < ((i : ℚ) - 20 + 1) / 80) ∧
    (∃ i : Nat, i < 100 ∧ getId DistributionType.Hotspot r1 r2 = loanId i) := by
  have hhot : r1 < 8/10 → ∃ i : Nat, i < 20 ∧
      getId DistributionType.Hotspot r1 r2 = loanId i ∧
      (i : ℚ) / 20 ≤ r2 ∧ r2 < ((i : ℚ) + 1) / 20 := by
    intro hh
    have hx : r2 * ((100 : ℚ) * (2/10)) = 20 * r2 := by ring
    have hnn : (0 : ℤ) ≤ ⌊r2 * ((100 : ℚ) * (2/10))⌋ := by
      apply Int.floor_nonneg.mpr
      rw [hx]
      positivity
    have hlt : ⌊r2 * ((100 : ℚ) * (2/10))⌋ < 20 := by
      apply Int.floor_lt.mpr
      rw [hx]
      push_cast
      linarith
    have hcast : ((Int.toNat ⌊r2 * ((100 : ℚ) * (2/10))⌋ : Nat) : ℚ)
        = (⌊r2 * ((100 : ℚ) * (2/10))⌋ : ℚ) := by
      exact_mod_cast congrArg (fun z : ℤ => (z : ℚ)) (Int.toNat_of_nonneg hnn)
    have hle : ((⌊r2 * ((100 : ℚ) * (2/10))⌋ : ℤ) : ℚ) ≤ 20 * r2 :=
      le_of_le_of_eq (Int.floor_le _) hx
    have hgt : 20 * r2 < ((⌊r2 * ((100 : ℚ) * (2/10))⌋ : ℤ) : ℚ) + 1 :=
      lt_of_eq_of_lt hx.symm (Int.lt_floor_add_one _)
    refine ⟨Int.toNat ⌊r2 * ((100 : ℚ) * (2/10))⌋, ?_, ?_, ?_, ?_⟩
    · omega
    · simp [getId, hh]
    · rw [hcast]
      linarith
    · rw [hcast]
      linarith
  have hcold : ¬r1 < 8/10 → ∃ i : Nat, 20 ≤ i ∧ i < 100 ∧
      getId DistributionType.Hotspot r1 r2 = loanId i ∧
      ((i : ℚ) - 20) / 80 ≤ r2 ∧ r2 < ((i : ℚ) - 20 + 1) / 80 := by
    intro hh
    have hx : r2 * ((100 : ℚ) * (8/10)) = 80 * r2 := by ring
    have hnn : (0 : ℤ) ≤ ⌊r2 * ((100 : ℚ) * (8/10))⌋ := by
      apply Int.floor_nonneg.mpr
      rw [hx]
      positivity
    have hlt : ⌊r2 * ((100 : ℚ) * (8/10))⌋ < 80 := by
      apply Int.floor_lt.mpr
      rw [hx]
      push_cast
      linarith
    have hcast : ((Int.toNat ⌊r2 * ((100 : ℚ) * (8/10))⌋ : Nat) : ℚ)
        = (⌊r2 * ((100 : ℚ) * (8/10))⌋ : ℚ) := by
      exact_mod_cast congrArg (fun z : ℤ => (z : ℚ)) (Int.toNat_of_nonneg hnn)
    have hle : ((⌊r2 * ((100 : ℚ) * (8/10))⌋ : ℤ) : ℚ) ≤ 80 * r2 :=
      le_of_le_of_eq (Int.floor_le _) hx
    have hgt : 80 * r2 < ((⌊r2 * ((100 : ℚ) * (8/10))⌋ : ℤ) : ℚ) + 1 :=
      lt_of_eq_of_lt hx.symm (Int.lt_floor_add_one _)
    refine ⟨Int.toNat ⌊r2 * ((100 : ℚ) * (8/10))⌋ + 20, by omega, by omega, ?_, ?_, ?_⟩
    · simp [getId, hh]
    · push_cast
      rw [hcast]
      linarith
    · push_cast
      rw [hcast]
      linarith
  refine ⟨hhot, hcold, ?_⟩
  by_cases hh : r1 < 8/10
  · obtain ⟨i, hi, he, _⟩ := hhot hh
    exact ⟨i, by omega, he⟩
  · obtain ⟨i, _, hi, he, _⟩ := hcold hh
    exact ⟨i, hi, he⟩

/-- Witness for C8: with draws 0.5 and 0.5 the selector lands in the hot
region on key `loan-10`, whose cell `[10/20, 11/20)` indeed contains
the draw 0.5. -/
theorem hotspot_selector_witness :
    getId DistributionType.Hotspot (1/2) (1/2) = loanId 10 ∧
    ((10 : ℚ) / 20 ≤ 1/2 ∧ (1/2 : ℚ) < (10 + 1) / 20) := by
  obtain ⟨i, hi, he, hc1, hc2⟩ :=
    (hotspot_selector (1/2) (1/2) (by norm_num) (by norm_num) (by norm_num)
      (by norm_num)).1 (by norm_num)
  have hival : i = 10 := by
    by_contra hne
    have hlow : (i : ℚ) ≤ 9 ∨ 11 ≤ (i : ℚ) := by
      rcases Nat.lt_or_ge i 10 with h | h
      · left; exact_mod_cast Nat.le_of_lt_succ h
      · right
        have : i ≠ 10 := hne
        have h11 : 11 ≤ i := by omega
        exact_mod_cast h11
    rcases hlow with h | h
    · have : (1/2 : ℚ) < 10/20 := by
        calc (1/2 : ℚ) < ((i : ℚ) + 1) / 20 := hc2
        _ ≤ 10/20 := by linarith
      norm_num at this
    · have : (11 : ℚ)/20 ≤ 1/2 := by
        calc (11 : ℚ)/20 ≤ (i : ℚ)/20 := by linarith
        _ ≤ 1/2 := hc1
      norm_num at this
  subst hival
  exact ⟨he, hc1, hc2⟩

/-- Claim C7 — on every execution path of the Pessimistic handler (normal
completion, key-not-found early return, or an error thrown at any
point of the read-mutate-write body) the trace is the lock, then body
calls containing no unlock, then exactly one `unlock` of the locked
key. -/
theorem pessimistic_unlock_every_path (k : String) (found : Bool) (f : Fault) :
    ∃ mid : List PEv,
      (pessHandler k (pessBody k found f)).trace
        = PEv.lockEv k :: (mid ++ [PEv.unlockEv k]) ∧
      PEv.unlockEv k ∉ mid := by
  cases f with
  | noFault =>
      cases found with
      | true =>
          exact ⟨[PEv.readEv k, PEv.writeEv k],
            by simp [pessHandler, pessBody, Comp.andThen, Comp.tryFinallyC, lockC, unlockC],
            by simp⟩
      | false =>
          exact ⟨[PEv.readEv k],
            by simp [pessHandler, pessBody, Comp.andThen, Comp.tryFinallyC, lockC, unlockC],
            by simp⟩
  | inRead =>
      exact ⟨[],
        by simp [pessHandler, pessBody, Comp.andThen, Comp.tryFinallyC, lockC, unlockC],
        by simp⟩
  | inBody =>
      cases found with
      | true =>
          exact ⟨[PEv.readEv k],
            by simp [pessHandler, pessBody, Comp.andThen, Comp.tryFinallyC, lockC, unlockC],
            by simp⟩
      | false =>
          exact ⟨[PEv.readEv k],
            by simp [pessHandler, pessBody, Comp.andThen, Comp.tryFinallyC, lockC, unlockC],
            by simp⟩
  | inWrite =>
      cases found with
      | true =>
          exact ⟨[PEv.readEv k, PEv.writeEv k],
            by simp [pessHandler, pessBody, Comp.andThen, Comp.tryFinallyC, lockC, unlockC],
            by simp⟩
      | false =>
          exact ⟨[PEv.readEv k],
            by simp [pessHandler, pessBody, Comp.andThen, Comp.tryFinallyC, lockC, unlockC],
            by simp⟩

/-- Whatever the store holds, the driver's scan reads version 0 for
every key: `findById` builds its copy with the three-argument
constructor call, which leaves the copy's `version` at the default
0. -/
theorem versionAt_zero (s : Store) (i : Nat) : versionAt s i = 0 := by
  unfold versionAt findById
  cases h : Store.get s (loanId i) <;> simp [mkLoan3]

/-- Hence the driver's `actualTotalVersion` is 0 after every run. -/
theorem sumVersions_zero (s : Store) (n : Nat) : sumVersions s n = 0 :=
  Finset.sum_eq_zero (fun i _ => versionAt_zero s i)

/-- Hence the reported metric always equals the request count. -/
theorem lostUpdates_eq_requests (s : Store) (n N : Nat) :
    lostUpdates s n N = (N : ℤ) := by
  unfold lostUpdates
  rw [sumVersions_zero]
  simp

/-- Claim C6 — contradicted by the frozen code: after one update of
`loan-0` the stored slot holds version 1 with an object payload, but
`findById` returns a copy whose `version` is 0 and whose payload slot
holds the number 1 (the stored version): the three-argument
`new Loan(id, sharePie, version)` call shifts its arguments across the
four-parameter constructor instead of copying the record. -/
theorem findById_copy_version_zero :
    (Store.get demoStore (loanId 0)).map (fun e => e.loan.version) = some 1 ∧
    (Store.get demoStore (loanId 0)).map (fun e => e.loan.sharePie)
      = some (JsVal.obj 1) ∧
    (findById demoStore (loanId 0)).map Loan.version = some 0 ∧
    (findById demoStore (loanId 0)).map Loan.sharePie = some (JsVal.num 1) := by
  decide

/-- Claim C1 — contradicted by the frozen code: with a single request
targeting `loan-0`, the CAS run (read, successful CAS) and the
Pessimistic run (lock, read, write, unlock) both complete, yet the
driver's metric `TOTAL_REQUESTS - sum(final versions)` is 1, not 0:
the final scan reads every version through `findById`, whose copies
always carry version 0. -/
theorem lost_update_metric_nonzero :
    ((cRun 100 1 (fun _ => loanId 0) [0, 0]).tasks 0 = CTask.done ∧
      lostUpdates (cRun 100 1 (fun _ => loanId 0) [0, 0]).store 100 1 = 1) ∧
    ((pRun 100 1 (fun _ => loanId 0) [0, 0, 0, 0]).tasks 0 = PTask.pdone ∧
      lostUpdates (pRun 100 1 (fun _ => loanId 0) [0, 0, 0, 0]).store 100 1 = 1) := by
  refine ⟨⟨by decide, ?_⟩, ⟨by decide, ?_⟩⟩ <;>
    · rw [lostUpdates_eq_requests]
      norm_num

end LoanBench


